import Mathlib

/-!
# x86prime `examples/io.c`: host traps, bump allocator, exchange sort

A shallow embedding of `src/examples/io.c`.

* Addresses are counted in word-sized slots (`long`), so `&q[k]` is `q + k`.
* `long` values are `Int`; the program never does arithmetic on the values it
  sorts, and the loop counters stay within `0 .. num_elem`, so no operation of
  the program can overflow.
* The two globals are kept apart from the word memory: `cur_allocator` is a
  field of the state and `&allocator_base` is the parameter `base`.
* Pointers are 64 bits wide, so the address space has `2 ^ 61` word slots and
  the pointer arithmetic of `allocate`, `&cur_allocator[num_entries]`, is
  reduced modulo `2 ^ 61` slots (`8 * num_entries` bytes modulo `2 ^ 64`).
* The word memory is a total map on slot addresses: the capacity of the
  backing region behind `allocator_base` is not modelled, a store never
  reaches the globals or the code, and the element addresses `p + i` of an
  array are plain slot numbers (an array is not followed past the top of the
  address space).
* The host is an oracle: the values the read trap and the random trap will
  return are two streams carried in the state, and every trap is appended to
  a trace.  Every store instruction is appended to a log of addresses.
-/

namespace X86prime

/-- One `syscall` instruction: the opcode placed in `rax`, and the value
placed in `rbx` when the trap takes an argument. -/
structure Trap where
  opcode : Nat
  arg : Option Int
deriving DecidableEq

/-- Machine state observed by `io.c`. -/
structure State where
  /-- the global `long* cur_allocator`, as a slot address -/
  cur_allocator : Int
  /-- word memory, slot address to value -/
  mem : Int → Int
  /-- values the host will return from the read trap, next first -/
  input : Nat → Int
  /-- values the host will return from the random trap, next first -/
  random : Nat → Int
  /-- traps issued so far, oldest first -/
  traps : List Trap
  /-- slot addresses stored to so far, oldest first -/
  stores : List Int

/-- The assignment `*a = v`. -/
def State.store (s : State) (a v : Int) : State :=
  { s with mem := fun x => if x = a then v else s.mem x, stores := s.stores ++ [a] }

/-- Source `read_long`: `movq $0,%rax; syscall`, result in `rax`. -/
def read_long (s : State) : Int × State :=
  (s.input 0,
   { s with input := fun k => s.input (k + 1), traps := s.traps ++ [⟨0, none⟩] })

/-- Source `gen_random`: `movq $1,%rax; syscall`, result in `rax`. -/
def gen_random (s : State) : Int × State :=
  (s.random 0,
   { s with random := fun k => s.random (k + 1), traps := s.traps ++ [⟨1, none⟩] })

/-- Source `write_long`: `movq $2,%rax; syscall` with `value` in `rbx`. -/
def write_long (value : Int) (s : State) : State :=
  { s with traps := s.traps ++ [⟨2, some value⟩] }

/-- Source `init_allocator`: `cur_allocator = &allocator_base`. -/
def init_allocator (base : Int) (s : State) : State :=
  { s with cur_allocator := base }

/-- Number of word-sized slots in the 64-bit address space: `2 ^ 64` bytes in
words of 8 bytes, that is `2 ^ 61`. -/
def addrSlots : Int := 2305843009213693952

/-- Source `allocate`.  The new cursor `&cur_allocator[num_entries]` is 64-bit
address arithmetic: the byte address moves by `8 * num_entries` modulo `2 ^ 64`,
so the slot address moves by `num_entries` modulo `addrSlots`. -/
def allocate (num_entries : Int) (s : State) : Int × State :=
  let res := s.cur_allocator
  (res, { s with cur_allocator := (s.cur_allocator + num_entries) % addrSlots })

/-- The loop `for (long i = i0; i < n; ++i) body(i)`, entered with counter `i`.
The first argument bounds the number of iterations still allowed; callers pass
`(n - i0).toNat`, the exact number of iterations the loop makes. -/
def forLoop (body : Int → State → State) (n : Int) : Nat → Int → State → State
  | 0, _, s => s
  | fuel + 1, i, s => if i < n then forLoop body n fuel (i + 1) (body i s) else s

/-- Body of the loop of `get_random_array`: `p[i] = gen_random()`. -/
def get_random_array_body (p i : Int) (s : State) : State :=
  let r := gen_random s
  r.2.store (p + i) r.1

/-- Source `get_random_array`. -/
def get_random_array (num_entries : Int) (s : State) : Int × State :=
  let a := allocate num_entries s
  let p := a.1
  (p, forLoop (get_random_array_body p) num_entries (num_entries - 0).toNat 0 a.2)

/-- Body of the inner loop of `sort`: compare slots `i` and `j`, swap through
`tmp` when `array[i] > array[j]`. -/
def sort_inner_body (array i j : Int) (s : State) : State :=
  if s.mem (array + i) > s.mem (array + j) then
    let tmp := s.mem (array + i)
    let s1 := s.store (array + i) (s.mem (array + j))
    s1.store (array + j) tmp
  else s

/-- Body of the outer loop of `sort`: `for (long j = i + 1; j < num_elem; j++)`. -/
def sort_outer_body (num_elem array i : Int) (s : State) : State :=
  forLoop (sort_inner_body array i) num_elem (num_elem - (i + 1)).toNat (i + 1) s

/-- Source `sort`. -/
def sort (num_elem array : Int) (s : State) : State :=
  forLoop (sort_outer_body num_elem array) num_elem (num_elem - 0).toNat 0 s

/-- Source `print_array`. -/
def print_array (num_elem array : Int) (s : State) : State :=
  forLoop (fun i t => write_long (t.mem (array + i)) t) num_elem (num_elem - 0).toNat 0 s

/-- Source `run`; `base` is `&allocator_base`. -/
def run (base : Int) (s : State) : State :=
  let s1 := init_allocator base s
  let r := read_long s1
  let num_entries := r.1
  let g := get_random_array num_entries r.2
  let p := g.1
  let s2 := sort num_entries p g.2
  print_array num_entries p s2

/-- Slots `p[0], ..., p[n-1]` of a memory, as a list. -/
def readArray (m : Int → Int) (p : Int) (n : Nat) : List Int :=
  (List.range n).map fun (k : Nat) => m (p + (k : Int))

/-- The first `n` values of a stream, as a list. -/
def streamTake (r : Nat → Int) (n : Nat) : List Int :=
  (List.range n).map r

/-- The values written to the host: the arguments of the write traps, in order. -/
def written (t : List Trap) : List Int :=
  t.filterMap fun e => if e.opcode = 2 then e.arg else none

/-- A stream that starts with the given values and continues with zeros. -/
def streamOf (l : List Int) : Nat → Int := fun k => l.getD k 0

/-- An initial state: zeroed memory, nothing issued yet. -/
def initState (n : Int) (r : List Int) : State :=
  { cur_allocator := 0, mem := fun _ => 0, input := fun _ => n, random := streamOf r,
    traps := [], stores := [] }

/-- A finite sequence of `allocate` calls with the given sizes: the pointers
returned, in call order, and the final state. -/
def allocateAll : List Int → State → List Int × State
  | [], s => ([], s)
  | c :: cs, s =>
    let a := allocate c s
    let r := allocateAll cs a.2
    (a.1 :: r.1, r.2)

/-- Slot `x` lies in the region of `c` slots that starts at `a`. -/
def inRegion (x a c : Int) : Prop := a ≤ x ∧ x < a + c

instance (x a c : Int) : Decidable (inRegion x a c) := by
  unfold inRegion
  exact inferInstance

/-- The array of a state is in non-decreasing order: each slot is at most the next. -/
def nondecreasing (s : State) (array num_elem : Int) : Prop :=
  ∀ k, 0 ≤ k → k < num_elem - 1 → s.mem (array + k) ≤ s.mem (array + (k + 1))

/-- A state whose memory holds `-x` in slot `x` (so every array in it is in
strictly decreasing order), with nothing issued yet. -/
def descState : State :=
  { cur_allocator := 0, mem := fun x => -x, input := fun _ => 0, random := fun _ => 0,
    traps := [], stores := [] }

/-- A state whose memory holds `x` in slot `x` (so every array in it is already
in increasing order), with nothing issued yet. -/
def ascState : State :=
  { cur_allocator := 0, mem := fun x => x, input := fun _ => 0, random := fun _ => 0,
    traps := [], stores := [] }

/-- A reference sort, written from the specification's words ("any correct
sorting algorithm"): insertion sort under `≤` on signed integers. -/
def referenceSort (l : List Int) : List Int := l.insertionSort (· ≤ ·)

/-- A state that differs from `initState 3 [7, -1, 2]` in its memory, its cursor,
its traces and the random values after the third. -/
def otherState : State :=
  { cur_allocator := 55, mem := fun x => -x, input := fun _ => 3,
    random := streamOf [7, -1, 2, 9], traps := [⟨1, none⟩], stores := [4] }

/-- The state of `sort` when its outer loop has completed its first `k`
iterations (those with index `0, ..., k-1`): the outer loop of `sort`, stopped
after `k` iterations. -/
def sort_after (num_elem array : Int) (k : Nat) (s : State) : State :=
  forLoop (sort_outer_body num_elem array) num_elem k 0 s

/-! ## The `for` loop -/

theorem forLoop_of_not_lt (body : Int → State → State) (n : Int) (fuel : Nat) (i : Int)
    (s : State) (h : ¬ i < n) : forLoop body n fuel i s = s := by
  cases fuel with
  | zero => rfl
  | succ f => simp [forLoop, h]

/-- Any bound at least `(n - i).toNat` gives the same final state: the loop
always leaves through its guard, never because the bound ran out. -/
theorem forLoop_fuel (body : Int → State → State) (n : Int) :
    ∀ (fuel : Nat) (i : Int) (s : State), (n - i).toNat ≤ fuel →
      forLoop body n fuel i s = forLoop body n (n - i).toNat i s := by
  intro fuel
  induction fuel with
  | zero =>
    intro i s h
    have h0 : (n - i).toNat = 0 := Nat.le_zero.mp h
    rw [h0]
  | succ f ih =>
    intro i s h
    by_cases hi : i < n
    · obtain ⟨m, hm⟩ : ∃ m, (n - i).toNat = m + 1 := ⟨(n - i).toNat - 1, by omega⟩
      have hm1 : (n - (i + 1)).toNat = m := by omega
      rw [hm]
      simp only [forLoop, hi, if_true]
      rw [ih (i + 1) (body i s) (by omega), ← hm1]
    · rw [forLoop_of_not_lt _ _ _ _ _ hi, forLoop_of_not_lt _ _ _ _ _ hi]

theorem forLoop_step (body : Int → State → State) (n i : Int) (s : State) (h : i < n) :
    forLoop body n (n - i).toNat i s
      = forLoop body n (n - (i + 1)).toNat (i + 1) (body i s) := by
  obtain ⟨m, hm⟩ : ∃ m, (n - i).toNat = m + 1 := ⟨(n - i).toNat - 1, by omega⟩
  have hm1 : (n - (i + 1)).toNat = m := by omega
  rw [hm, hm1]
  simp [forLoop, h]

/-- Invariant rule for the loop: an invariant that holds on entry and is kept
by every iteration holds, at counter `n`, on exit. -/
theorem forLoop_inv (body : Int → State → State) (n : Int) (P : Int → State → Prop)
    (hstep : ∀ k t, k < n → P k t → P (k + 1) (body k t)) :
    ∀ (fuel : Nat) (i : Int) (s : State), (n - i).toNat ≤ fuel → i ≤ n → P i s →
      P n (forLoop body n fuel i s) := by
  intro fuel
  induction fuel with
  | zero =>
    intro i s h hin hP
    have : i = n := by omega
    subst this
    exact hP
  | succ f ih =>
    intro i s h hin hP
    by_cases hi : i < n
    · simp only [forLoop, hi, if_true]
      exact ih (i + 1) (body i s) (by omega) (by omega) (hstep i s hi hP)
    · have : i = n := by omega
      subst this
      rw [forLoop_of_not_lt _ _ _ _ _ hi]
      exact hP

/-- Invariant rule with the lower bound of the counter available in the step. -/
theorem forLoop_inv_from (body : Int → State → State) (n i : Int) (s : State)
    (P : Int → State → Prop) (hin : i ≤ n) (h0 : P i s)
    (hstep : ∀ k t, i ≤ k → k < n → P k t → P (k + 1) (body k t)) :
    P n (forLoop body n (n - i).toNat i s) := by
  have h := forLoop_inv body n (fun k t => i ≤ k ∧ P k t)
    (fun k t hk hP => ⟨by omega, hstep k t hP.1 hk hP.2⟩)
    (n - i).toNat i s le_rfl hin ⟨le_rfl, h0⟩
  exact h.2

/-! ## One compare-and-swap -/

theorem sort_inner_body_mem (array i j : Int) (s : State) (x : Int) :
    (sort_inner_body array i j s).mem x =
      if s.mem (array + i) > s.mem (array + j) then
        (if x = array + j then s.mem (array + i)
         else if x = array + i then s.mem (array + j) else s.mem x)
      else s.mem x := by
  unfold sort_inner_body
  split_ifs <;> simp_all [State.store]

theorem sort_inner_body_fields (array i j : Int) (s : State) :
    (sort_inner_body array i j s).cur_allocator = s.cur_allocator ∧
    (sort_inner_body array i j s).input = s.input ∧
    (sort_inner_body array i j s).random = s.random ∧
    (sort_inner_body array i j s).traps = s.traps := by
  unfold sort_inner_body
  split_ifs <;> simp [State.store]

theorem sort_inner_body_of_le (array i j : Int) (s : State)
    (h : s.mem (array + i) ≤ s.mem (array + j)) : sort_inner_body array i j s = s := by
  unfold sort_inner_body
  rw [if_neg (not_lt.mpr h)]

/-- Composing a function on `0 .. N-1` with a transposition of two indices
below `N` permutes its list of values. -/
theorem perm_map_swap (f : Nat → Int) (a b N : Nat) (ha : a < N) (hb : b < N) :
    ((List.range N).map (fun k => f (Equiv.swap a b k))).Perm ((List.range N).map f) := by
  have h1 : ((List.range N).map (Equiv.swap a b)).Perm (List.range N) := by
    apply (List.perm_ext_iff_of_nodup
      ((List.nodup_range N).map (Equiv.swap a b).injective) (List.nodup_range N)).2
    intro x
    simp only [List.mem_map, List.mem_range]
    constructor
    · rintro ⟨y, hy, rfl⟩
      rw [Equiv.swap_apply_def]
      split_ifs <;> omega
    · intro hx
      refine ⟨Equiv.swap a b x, ?_, Equiv.swap_apply_self a b x⟩
      rw [Equiv.swap_apply_def]
      split_ifs <;> omega
  have h2 := h1.map f
  rwa [List.map_map] at h2

theorem sort_inner_body_perm (n array i j : Int) (s : State)
    (hi : 0 ≤ i) (hij : i < j) (hj : j < n) :
    (readArray (sort_inner_body array i j s).mem array n.toNat).Perm
      (readArray s.mem array n.toNat) := by
  by_cases hc : s.mem (array + i) ≤ s.mem (array + j)
  · rw [sort_inner_body_of_le _ _ _ _ hc]
  · have hgt : s.mem (array + i) > s.mem (array + j) := not_le.mp hc
    have ei : ((i.toNat : Nat) : Int) = i := Int.toNat_of_nonneg hi
    have ej : ((j.toNat : Nat) : Int) = j := Int.toNat_of_nonneg (by omega)
    have key : readArray (sort_inner_body array i j s).mem array n.toNat
        = (List.range n.toNat).map
            (fun k => (fun m : Nat => s.mem (array + (m : Int)))
              (Equiv.swap i.toNat j.toNat k)) := by
      unfold readArray
      apply List.map_congr_left
      intro k _
      show (sort_inner_body array i j s).mem (array + (k : Int))
        = s.mem (array + ((Equiv.swap i.toNat j.toNat k : Nat) : Int))
      rw [sort_inner_body_mem, if_pos hgt, Equiv.swap_apply_def]
      by_cases h1 : k = i.toNat
      · subst h1
        rw [if_pos rfl, ei, ej, if_neg (by omega), if_pos rfl]
      · by_cases h2 : k = j.toNat
        · subst h2
          rw [if_neg h1, if_pos rfl, ei, ej, if_pos rfl]
        · rw [if_neg h1, if_neg h2, if_neg (by omega), if_neg (by omega)]
    rw [key]
    exact perm_map_swap (fun m : Nat => s.mem (array + (m : Int))) i.toNat j.toNat n.toNat
      (by omega) (by omega)

/-! ## The inner loop of `sort` -/

theorem sort_outer_body_fields (n array i : Int) (s : State) (hin : i < n) :
    (sort_outer_body n array i s).cur_allocator = s.cur_allocator ∧
    (sort_outer_body n array i s).input = s.input ∧
    (sort_outer_body n array i s).random = s.random ∧
    (sort_outer_body n array i s).traps = s.traps := by
  unfold sort_outer_body
  apply forLoop_inv_from (sort_inner_body array i) n (i + 1) s
    (fun _ t => t.cur_allocator = s.cur_allocator ∧ t.input = s.input ∧
      t.random = s.random ∧ t.traps = s.traps) (by omega) ⟨rfl, rfl, rfl, rfl⟩
  intro k t _ _ h
  obtain ⟨h1, h2, h3, h4⟩ := sort_inner_body_fields array i k t
  exact ⟨h1.trans h.1, h2.trans h.2.1, h3.trans h.2.2.1, h4.trans h.2.2.2⟩

/-- The inner loop touches only slots `i .. n-1` of the array. -/
theorem sort_outer_body_frame (n array i : Int) (s : State) (hin : i < n) (x : Int)
    (hx : x < array + i ∨ array + n ≤ x) :
    (sort_outer_body n array i s).mem x = s.mem x := by
  unfold sort_outer_body
  apply forLoop_inv_from (sort_inner_body array i) n (i + 1) s
    (fun _ t => t.mem x = s.mem x) (by omega) rfl
  intro k t hk1 hk2 h
  rw [sort_inner_body_mem, ← h]
  split_ifs <;> first | rfl | omega

/-- After the inner loop, slot `i` holds a value no larger than any later slot. -/
theorem sort_outer_body_min (n array i : Int) (s : State) (hin : i < n) :
    ∀ k, i < k → k < n →
      (sort_outer_body n array i s).mem (array + i)
        ≤ (sort_outer_body n array i s).mem (array + k) := by
  unfold sort_outer_body
  apply forLoop_inv_from (sort_inner_body array i) n (i + 1) s
    (fun j t => ∀ k, i < k → k < j → t.mem (array + i) ≤ t.mem (array + k)) (by omega)
  · intro k h1 h2
    omega
  · intro j t hj1 hj2 h k hk1 hk2
    rw [sort_inner_body_mem, sort_inner_body_mem]
    by_cases hkj : k = j
    · subst hkj
      split_ifs <;> omega
    · have hk := h k hk1 (by omega)
      split_ifs <;> omega

/-- Every value found in slots `i .. n-1` after the inner loop was in one of
those slots before it. -/
theorem sort_outer_body_from (n array i : Int) (s : State) (hin : i < n) :
    ∀ k, i ≤ k → k < n →
      ∃ k', i ≤ k' ∧ k' < n ∧ (sort_outer_body n array i s).mem (array + k) = s.mem (array + k') := by
  unfold sort_outer_body
  apply forLoop_inv_from (sort_inner_body array i) n (i + 1) s
    (fun _ t => ∀ k, i ≤ k → k < n →
      ∃ k', i ≤ k' ∧ k' < n ∧ t.mem (array + k) = s.mem (array + k')) (by omega)
  · intro k h1 h2
    exact ⟨k, h1, h2, rfl⟩
  · intro j t hj1 hj2 h k hk1 hk2
    rw [sort_inner_body_mem]
    split_ifs with hc e1 e2
    · exact h i le_rfl hin
    · exact h j (by omega) hj2
    · exact h k hk1 hk2
    · exact h k hk1 hk2

theorem sort_outer_body_perm (n array i : Int) (s : State) (hi : 0 ≤ i) (hin : i < n) :
    (readArray (sort_outer_body n array i s).mem array n.toNat).Perm
      (readArray s.mem array n.toNat) := by
  unfold sort_outer_body
  apply forLoop_inv_from (sort_inner_body array i) n (i + 1) s
    (fun _ t => (readArray t.mem array n.toNat).Perm (readArray s.mem array n.toNat))
    (by omega) (List.Perm.refl _)
  intro j t hj1 hj2 h
  exact (sort_inner_body_perm n array i j t hi (by omega) hj2).trans h

/-! ## The outer loop of `sort` -/

theorem sort_of_nonpos (n array : Int) (s : State) (hn : n ≤ 0) : sort n array s = s := by
  unfold sort
  exact forLoop_of_not_lt _ _ _ _ _ (by omega)

theorem sort_fields (n array : Int) (s : State) :
    (sort n array s).cur_allocator = s.cur_allocator ∧
    (sort n array s).input = s.input ∧
    (sort n array s).random = s.random ∧
    (sort n array s).traps = s.traps := by
  by_cases hn : 0 ≤ n
  · unfold sort
    apply forLoop_inv_from (sort_outer_body n array) n 0 s
      (fun _ t => t.cur_allocator = s.cur_allocator ∧ t.input = s.input ∧
        t.random = s.random ∧ t.traps = s.traps) hn ⟨rfl, rfl, rfl, rfl⟩
    intro k t _ hk h
    obtain ⟨h1, h2, h3, h4⟩ := sort_outer_body_fields n array k t hk
    exact ⟨h1.trans h.1, h2.trans h.2.1, h3.trans h.2.2.1, h4.trans h.2.2.2⟩
  · rw [sort_of_nonpos n array s (by omega)]
    exact ⟨rfl, rfl, rfl, rfl⟩

theorem sort_frame (n array : Int) (s : State) (x : Int) (hx : x < array ∨ array + n ≤ x) :
    (sort n array s).mem x = s.mem x := by
  by_cases hn : 0 ≤ n
  · unfold sort
    apply forLoop_inv_from (sort_outer_body n array) n 0 s
      (fun _ t => t.mem x = s.mem x) hn rfl
    intro k t hk0 hk h
    rw [sort_outer_body_frame n array k t hk x (by omega), h]
  · rw [sort_of_nonpos n array s (by omega)]

theorem sort_perm (n array : Int) (s : State) :
    (readArray (sort n array s).mem array n.toNat).Perm (readArray s.mem array n.toNat) := by
  by_cases hn : 0 ≤ n
  · unfold sort
    apply forLoop_inv_from (sort_outer_body n array) n 0 s
      (fun _ t => (readArray t.mem array n.toNat).Perm (readArray s.mem array n.toNat))
      hn (List.Perm.refl _)
    intro k t hk0 hk h
    exact (sort_outer_body_perm n array k t hk0 hk).trans h
  · rw [sort_of_nonpos n array s (by omega)]

/-- One outer iteration extends the sorted, bounded prefix by one slot. -/
theorem sort_outer_body_extend (n array i : Int) (t : State) (hi : 0 ≤ i) (hin : i < n)
    (h : ∀ a b, 0 ≤ a → a < i → a ≤ b → b < n → t.mem (array + a) ≤ t.mem (array + b)) :
    ∀ a b, 0 ≤ a → a < i + 1 → a ≤ b → b < n →
      (sort_outer_body n array i t).mem (array + a)
        ≤ (sort_outer_body n array i t).mem (array + b) := by
  intro a b ha hai hab hbn
  by_cases hlt : a < i
  · rw [sort_outer_body_frame n array i t hin (array + a) (by omega)]
    by_cases hb : b < i
    · rw [sort_outer_body_frame n array i t hin (array + b) (by omega)]
      exact h a b ha hlt hab hbn
    · obtain ⟨k, hk1, hk2, hk3⟩ := sort_outer_body_from n array i t hin b (by omega) hbn
      rw [hk3]
      exact h a k ha hlt (by omega) hk2
  · have hai2 : a = i := by omega
    subst hai2
    by_cases hb : b = a
    · subst hb
      exact le_rfl
    · exact sort_outer_body_min n array a t hin b (by omega) hbn

/-- After `sort`, any two slots of the array are in order. -/
theorem sort_le (n array : Int) (s : State) :
    ∀ a b, 0 ≤ a → a ≤ b → b < n →
      (sort n array s).mem (array + a) ≤ (sort n array s).mem (array + b) := by
  intro a b ha hab hbn
  have hn : 0 ≤ n := by omega
  have key : ∀ a b, 0 ≤ a → a < n → a ≤ b → b < n →
      (sort n array s).mem (array + a) ≤ (sort n array s).mem (array + b) := by
    unfold sort
    apply forLoop_inv_from (sort_outer_body n array) n 0 s
      (fun i t => ∀ a b, 0 ≤ a → a < i → a ≤ b → b < n →
        t.mem (array + a) ≤ t.mem (array + b)) hn
    · intro a b h1 h2
      omega
    · intro k t hk0 hk h
      exact sort_outer_body_extend n array k t hk0 hk h
  exact key a b ha (by omega) hab hbn

theorem readArray_length (m : Int → Int) (p : Int) (n : Nat) : (readArray m p n).length = n := by
  simp [readArray]

theorem readArray_getElem (m : Int → Int) (p : Int) (n k : Nat) (h : k < (readArray m p n).length) :
    (readArray m p n)[k] = m (p + (k : Int)) := by
  simp [readArray]

/-- After `sort`, the array read as a list is sorted. -/
theorem sort_sorted_list (n array : Int) (s : State) :
    (readArray (sort n array s).mem array n.toNat).Sorted (· ≤ ·) := by
  unfold readArray
  refine (List.pairwise_map).2 ?_
  refine List.Pairwise.imp_of_mem ?_ (List.pairwise_lt_range n.toNat)
  intro a b ha hb hab
  rw [List.mem_range] at ha hb
  exact sort_le n array s a b (by omega) (by omega) (by omega)

/-! ## `get_random_array` -/

theorem get_random_array_body_eq (p i : Int) (s : State) :
    get_random_array_body p i s =
      { s with mem := fun x => if x = p + i then s.random 0 else s.mem x,
               random := fun k => s.random (k + 1),
               traps := s.traps ++ [⟨1, none⟩],
               stores := s.stores ++ [p + i] } := rfl

/-- State of the fill loop of `get_random_array` when its counter is `i`. -/
theorem get_random_array_loop (p n : Int) (s : State) (hn : 0 ≤ n) :
    let t := forLoop (get_random_array_body p) n (n - 0).toNat 0 s
    t.cur_allocator = s.cur_allocator ∧ t.input = s.input ∧
    t.random = (fun k => s.random (k + n.toNat)) ∧
    t.traps = s.traps ++ List.replicate n.toNat ⟨1, none⟩ ∧
    t.stores = s.stores ++ (List.range n.toNat).map (fun (k : Nat) => p + (k : Int)) ∧
    (∀ k, 0 ≤ k → k < n → t.mem (p + k) = s.random k.toNat) ∧
    (∀ x, x < p ∨ p + n ≤ x → t.mem x = s.mem x) := by
  intro t
  have key := forLoop_inv_from (get_random_array_body p) n 0 s
    (fun i t => t.cur_allocator = s.cur_allocator ∧ t.input = s.input ∧
      t.random = (fun k => s.random (k + i.toNat)) ∧
      t.traps = s.traps ++ List.replicate i.toNat ⟨1, none⟩ ∧
      t.stores = s.stores ++ (List.range i.toNat).map (fun (k : Nat) => p + (k : Int)) ∧
      (∀ k, 0 ≤ k → k < i → t.mem (p + k) = s.random k.toNat) ∧
      (∀ x, x < p ∨ p + i ≤ x → t.mem x = s.mem x)) hn
    ⟨rfl, rfl, by simp, by simp, by simp, by intro k h1 h2; omega, by intro x _; rfl⟩
    (by
      intro i t hi0 hin ⟨h1, h2, h3, h4, h5, h6, h7⟩
      have hs : (i + 1).toNat = i.toNat + 1 := by omega
      have hc : ((i.toNat : Nat) : Int) = i := Int.toNat_of_nonneg hi0
      rw [get_random_array_body_eq]
      refine ⟨h1, h2, ?_, ?_, ?_, ?_, ?_⟩
      · funext k
        simp only [h3, hs]
        congr 1
        omega
      · simp only [h4, hs, List.replicate_succ', List.append_assoc]
      · simp only [h5, hs, List.range_succ, List.map_append, List.map_cons, List.map_nil,
          List.append_assoc, hc]
      · intro k hk0 hk
        by_cases hki : k = i
        · subst hki
          simp only [if_true, h3]
          congr 1
          omega
        · simp only [add_right_inj, hki, if_false]
          exact h6 k hk0 (by omega)
      · intro x hx
        have hne : x ≠ p + i := by omega
        simp only [hne, if_false]
        exact h7 x (by omega))
  exact key

/-! ## `print_array` -/

/-- The call `print_array` only appends one write trap per slot, in index order. -/
theorem print_array_eq (n array : Int) (s : State) :
    print_array n array s =
      { s with traps := s.traps ++
          (readArray s.mem array n.toNat).map (fun v => (⟨2, some v⟩ : Trap)) } := by
  by_cases hn : 0 ≤ n
  · unfold print_array
    have key := forLoop_inv_from (fun i t => write_long (t.mem (array + i)) t) n 0 s
      (fun i t => t = { s with traps := s.traps ++
          (readArray s.mem array i.toNat).map (fun v => (⟨2, some v⟩ : Trap)) }) hn
      (by simp [readArray])
      (by
        intro i t hi0 hin h
        have hs : (i + 1).toNat = i.toNat + 1 := by omega
        have hc : ((i.toNat : Nat) : Int) = i := Int.toNat_of_nonneg hi0
        subst h
        simp only [write_long, readArray, hs, List.range_succ, List.map_append, List.map_cons,
          List.map_nil, List.append_assoc, hc])
    exact key
  · have h0 : n.toNat = 0 := by omega
    unfold print_array
    rw [forLoop_of_not_lt _ _ _ _ _ (by omega), h0]
    simp [readArray]

/-! ## `run` -/

/-- The state `run` reaches just before `print_array`. -/
theorem run_eq (base : Int) (s : State) :
    run base s =
      print_array (s.input 0) base
        (sort (s.input 0) base
          (get_random_array (s.input 0) (read_long (init_allocator base s)).2).2) := rfl

theorem written_append (a b : List Trap) : written (a ++ b) = written a ++ written b := by
  simp [written, List.filterMap_append]

theorem written_replicate_random (k : Nat) : written (List.replicate k ⟨1, none⟩) = [] := by
  induction k with
  | zero => rfl
  | succ m ih => simp [written, List.replicate_succ]

theorem written_map_write (l : List Int) :
    written (l.map (fun v => (⟨2, some v⟩ : Trap))) = l := by
  induction l with
  | nil => rfl
  | cons a t ih =>
    simp only [written] at ih
    simp [written, ih]

/-- What `run` leaves behind, for a count `N = s.input 0` that is not negative. -/
theorem run_spec (base : Int) (s : State) (hN : 0 ≤ s.input 0) :
    (run base s).traps = s.traps ++ [⟨0, none⟩]
        ++ List.replicate (s.input 0).toNat ⟨1, none⟩
        ++ (readArray (run base s).mem base (s.input 0).toNat).map
            (fun v => (⟨2, some v⟩ : Trap)) ∧
    (readArray (run base s).mem base (s.input 0).toNat).Sorted (· ≤ ·) ∧
    (readArray (run base s).mem base (s.input 0).toNat).Perm
      (streamTake s.random (s.input 0).toNat) ∧
    (run base s).cur_allocator = (base + s.input 0) % addrSlots := by
  set N := s.input 0 with hNdef
  set s2 := (read_long (init_allocator base s)).2 with hs2
  have hg := get_random_array_loop base N (allocate N s2).2 hN
  simp only at hg
  obtain ⟨g1, g2, g3, g4, g5, g6, g7⟩ := hg
  set s3 := (get_random_array N s2).2 with hs3
  have hs3' : s3 = forLoop (get_random_array_body base) N (N - 0).toNat 0 (allocate N s2).2 := rfl
  rw [← hs3'] at g1 g2 g3 g4 g5 g6 g7
  obtain ⟨f1, f2, f3, f4⟩ := sort_fields N base s3
  have hrun : run base s = print_array N base (sort N base s3) := rfl
  have hmem : (run base s).mem = (sort N base s3).mem := by
    rw [hrun, print_array_eq]
  have hfill : readArray s3.mem base N.toNat = streamTake s.random N.toNat := by
    unfold readArray streamTake
    apply List.map_congr_left
    intro k hk
    rw [List.mem_range] at hk
    rw [g6 k (by omega) (by omega)]
    simp [allocate, hs2, read_long, init_allocator]
  refine ⟨?_, ?_, ?_, ?_⟩
  · rw [hmem, hrun, print_array_eq]
    simp only [f4, g4]
    simp [allocate, hs2, read_long, init_allocator]
  · rw [hmem]
    exact sort_sorted_list N base s3
  · rw [hmem, ← hfill]
    exact sort_perm N base s3
  · rw [hrun, print_array_eq]
    simp only [f1, g1]
    simp [allocate, hs2, read_long, init_allocator]

/-- The output of `run`: the values written are the final buffer, which is the
sorted rearrangement of the first `N` random values. -/
theorem run_written (base : Int) (s : State) (hN : 0 ≤ s.input 0) :
    written (run base s).traps
      = written s.traps ++ readArray (run base s).mem base (s.input 0).toNat := by
  rw [(run_spec base s hN).1]
  simp only [written_append, written_replicate_random, written_map_write, List.append_nil]
  simp [written]

theorem run_written_eq_referenceSort (base : Int) (s : State) (hN : 0 ≤ s.input 0) :
    written (run base s).traps
      = written s.traps ++ referenceSort (streamTake s.random (s.input 0).toNat) := by
  rw [run_written base s hN]
  congr 1
  obtain ⟨_, h2, h3, _⟩ := run_spec base s hN
  exact List.eq_of_perm_of_sorted
    (h3.trans (List.perm_insertionSort (· ≤ ·) _).symm) h2
    (List.sorted_insertionSort (· ≤ ·) _)

/-! ## The allocator -/

theorem sum_take_mono : ∀ (cs : List Int), (∀ c ∈ cs, 0 ≤ c) → ∀ a b : Nat, a ≤ b →
    (cs.take a).sum ≤ (cs.take b).sum
  | [], _, a, b, _ => by simp
  | c :: cs, h, 0, b, _ => by
    simp only [List.take_zero, List.sum_nil]
    exact List.sum_nonneg fun x hx => h x (List.mem_of_mem_take hx)
  | c :: cs, h, a + 1, 0, hab => by omega
  | c :: cs, h, a + 1, b + 1, hab => by
    simp only [List.take_succ_cons, List.sum_cons]
    have := sum_take_mono cs (fun x hx => h x (List.mem_cons_of_mem _ hx)) a b (by omega)
    omega

theorem addrSlots_eq : addrSlots = 2 ^ 61 := by
  norm_num [addrSlots]

/-- When the new cursor stays inside the address space, `allocate` adds without
wrapping. -/
theorem allocate_cursor_of_lt (c : Int) (s : State) (h0 : 0 ≤ s.cur_allocator + c)
    (h1 : s.cur_allocator + c < addrSlots) :
    (allocate c s).2 = { s with cur_allocator := s.cur_allocator + c } := by
  unfold allocate
  simp only [Int.emod_eq_of_lt h0 h1]

theorem allocateAll_eq : ∀ (cs : List Int) (s : State), (∀ c ∈ cs, 0 ≤ c) →
    0 ≤ s.cur_allocator → s.cur_allocator + cs.sum < addrSlots →
    (allocateAll cs s).1
        = (List.range cs.length).map (fun k => s.cur_allocator + (cs.take k).sum) ∧
    (allocateAll cs s).2 = { s with cur_allocator := s.cur_allocator + cs.sum }
  | [], s, _, _, _ => by simp [allocateAll]
  | c :: cs, s, hcs, h0, h1 => by
    have hc : 0 ≤ c := hcs c (List.mem_cons_self _ _)
    have hcs2 : ∀ x ∈ cs, 0 ≤ x := fun x hx => hcs x (List.mem_cons_of_mem _ hx)
    have hsum : 0 ≤ cs.sum := List.sum_nonneg hcs2
    rw [List.sum_cons] at h1
    have ha := allocate_cursor_of_lt c s (by omega) (by omega)
    obtain ⟨h2, h3⟩ := allocateAll_eq cs (allocate c s).2 hcs2
      (by rw [ha]; show 0 ≤ s.cur_allocator + c; omega)
      (by rw [ha]; show s.cur_allocator + c + cs.sum < addrSlots; omega)
    constructor
    · simp only [allocateAll, h2, List.length_cons, List.range_succ_eq_map, List.map_cons,
        List.map_map, List.take_zero, List.sum_nil, add_zero]
      congr 1
      apply List.map_congr_left
      intro k _
      simp [ha, add_assoc]
    · rw [show (allocateAll (c :: cs) s).2 = (allocateAll cs (allocate c s).2).2 from rfl,
        h3, ha]
      simp [add_assoc]

theorem allocateAll_getD (cs : List Int) (s : State) (hcs : ∀ c ∈ cs, 0 ≤ c)
    (h0 : 0 ≤ s.cur_allocator) (h1 : s.cur_allocator + cs.sum < addrSlots)
    (k : Nat) (hk : k < cs.length) :
    (allocateAll cs s).1.getD k 0 = s.cur_allocator + (cs.take k).sum := by
  rw [(allocateAll_eq cs s hcs h0 h1).1]
  simp [List.getD_eq_getElem?_getD, hk]

theorem sum_take_succ_getD (cs : List Int) (k : Nat) (hk : k < cs.length) :
    (cs.take (k + 1)).sum = (cs.take k).sum + cs.getD k 0 := by
  rw [List.sum_take_succ cs k hk, List.getD_eq_getElem cs 0 hk]

/-! ## `sort` on an array that is already in order -/

theorem nondecreasing_le (s : State) (array n : Int) (h : nondecreasing s array n) :
    ∀ a b, 0 ≤ a → a ≤ b → b < n → s.mem (array + a) ≤ s.mem (array + b) := by
  have key : ∀ (d : Nat) (a : Int), 0 ≤ a → a + d < n →
      s.mem (array + a) ≤ s.mem (array + (a + d)) := by
    intro d
    induction d with
    | zero => intro a _ _; simp
    | succ d ih =>
      intro a ha hd
      have h1 := ih a ha (by push_cast at hd; omega)
      have h2 := h (a + d) (by omega) (by push_cast at hd; omega)
      have e : a + ((d + 1 : Nat) : Int) = a + d + 1 := by push_cast; ring
      rw [e]
      exact h1.trans h2
  intro a b ha hab hb
  have e : b = a + ((b - a).toNat : Int) := by omega
  rw [e]
  exact key (b - a).toNat a ha (by omega)

theorem sort_of_le (n array : Int) (s : State)
    (h : ∀ a b, 0 ≤ a → a ≤ b → b < n → s.mem (array + a) ≤ s.mem (array + b)) :
    sort n array s = s := by
  by_cases hn : 0 ≤ n
  · unfold sort
    apply forLoop_inv_from (sort_outer_body n array) n 0 s (fun _ t => t = s) hn rfl
    intro i t hi0 hin ht
    subst ht
    unfold sort_outer_body
    apply forLoop_inv_from (sort_inner_body array i) n (i + 1) t (fun _ u => u = t)
      (by omega) rfl
    intro j u hj1 hjn hu
    subst hu
    exact sort_inner_body_of_le array i j u (h i j hi0 (by omega) hjn)
  · exact sort_of_nonpos n array s (by omega)

theorem run_mem (base : Int) (s : State) :
    (run base s).mem
      = (sort (s.input 0) base
          (get_random_array (s.input 0) (read_long (init_allocator base s)).2).2).mem := by
  rw [run_eq, print_array_eq]

/-! ## The outer loop of `sort`, iteration by iteration -/

/-- A loop allowed one more iteration runs the body once more, at the next
index, as long as the guard still holds there. -/
theorem forLoop_succ_end (body : Int → State → State) (n : Int) :
    ∀ (fuel : Nat) (i : Int) (s : State), i + fuel < n →
      forLoop body n (fuel + 1) i s = body (i + fuel) (forLoop body n fuel i s) := by
  intro fuel
  induction fuel with
  | zero =>
    intro i s h
    have hi : i < n := by simpa using h
    simp [forLoop, hi]
  | succ f ih =>
    intro i s h
    have hi : i < n := by push_cast at h; omega
    have e : i + ((f + 1 : Nat) : Int) = (i + 1) + (f : Int) := by push_cast; ring
    have h2 := ih (i + 1) (body i s) (by rw [← e]; exact h)
    have hl : forLoop body n (f + 1 + 1) i s
        = forLoop body n (f + 1) (i + 1) (body i s) := by
      rw [forLoop, if_pos hi]
    have hr : forLoop body n (f + 1) i s = forLoop body n f (i + 1) (body i s) := by
      rw [forLoop, if_pos hi]
    rw [e, hl, hr, h2]

/-- Invariant rule for a loop stopped after `fuel` iterations. -/
theorem forLoop_inv_fuel (body : Int → State → State) (n : Int) (P : Int → State → Prop)
    (hstep : ∀ k t, k < n → P k t → P (k + 1) (body k t)) :
    ∀ (fuel : Nat) (i : Int) (s : State), i + fuel ≤ n → P i s →
      P (i + fuel) (forLoop body n fuel i s) := by
  intro fuel
  induction fuel with
  | zero =>
    intro i s _ hP
    simpa [forLoop] using hP
  | succ f ih =>
    intro i s h hP
    have hi : i < n := by push_cast at h; omega
    have e : i + ((f + 1 : Nat) : Int) = (i + 1) + (f : Int) := by push_cast; ring
    rw [e]
    simp only [forLoop, hi, if_true]
    exact ih (i + 1) (body i s) (by rw [← e]; exact h) (hstep i s hi hP)

theorem sort_after_all (n array : Int) (s : State) :
    sort_after n array n.toNat s = sort n array s := by
  unfold sort_after sort
  rw [sub_zero]

theorem sort_after_succ (n array : Int) (s : State) (k : Nat) (hk : (k : Int) < n) :
    sort_after n array (k + 1) s = sort_outer_body n array k (sort_after n array k s) := by
  unfold sort_after
  have h := forLoop_succ_end (sort_outer_body n array) n k 0 s (by simpa using hk)
  simpa using h

/-- Invariant of the outer loop of `sort` after `k` iterations: the first `k`
slots are in order and bounded by every later slot, and the array is a
permutation of the original. -/
theorem sort_after_inv (n array : Int) (s : State) (k : Nat) (hk : (k : Int) ≤ n) :
    (∀ a b, 0 ≤ a → a < (k : Int) → a ≤ b → b < n →
      (sort_after n array k s).mem (array + a) ≤ (sort_after n array k s).mem (array + b)) ∧
    (readArray (sort_after n array k s).mem array n.toNat).Perm
      (readArray s.mem array n.toNat) := by
  unfold sort_after
  have key := forLoop_inv_fuel (sort_outer_body n array) n
    (fun i t => 0 ≤ i ∧
      (∀ a b, 0 ≤ a → a < i → a ≤ b → b < n → t.mem (array + a) ≤ t.mem (array + b)) ∧
      (readArray t.mem array n.toNat).Perm (readArray s.mem array n.toNat))
    (fun i t hin ⟨hi0, h1, h2⟩ =>
      ⟨by omega, sort_outer_body_extend n array i t hi0 hin h1,
        (sort_outer_body_perm n array i t hi0 hin).trans h2⟩)
    k 0 s (by simpa using hk)
    ⟨le_rfl, fun a b h1 h2 => by omega, List.Perm.refl _⟩
  simp only [zero_add] at key
  exact ⟨key.2.1, key.2.2⟩

/-! ## `run` on a count that is not positive -/

theorem run_of_nonpos (base : Int) (s : State) (h : s.input 0 ≤ 0) :
    run base s =
      { s with cur_allocator := (base + s.input 0) % addrSlots
               input := fun k => s.input (k + 1)
               traps := s.traps ++ [⟨0, none⟩] } := by
  have hlt : ¬ (0 : Int) < s.input 0 := by omega
  rw [run_eq]
  unfold print_array sort get_random_array
  simp only [forLoop_of_not_lt _ _ _ _ _ hlt]
  rfl

theorem streamTake_congr (r1 r2 : Nat → Int) (n : Nat) (h : ∀ k, k < n → r1 k = r2 k) :
    streamTake r1 n = streamTake r2 n := by
  unfold streamTake
  apply List.map_congr_left
  intro k hk
  exact h k (List.mem_range.mp hk)

/-! ## The claims -/

/-- C1: when the read trap returns `N ≥ 0`, `run` writes exactly `N` values `w`,
each at most the next (and pairwise in order), and `w` is a permutation of the
first `N` values of the random stream.  The two scenarios of the specification
hold for every base address. -/
theorem run_writes_sorted_permutation (base : Int) (s : State) (hN : 0 ≤ s.input 0) :
    (∃ w : List Int,
      written (run base s).traps = written s.traps ++ w ∧
      w.length = (s.input 0).toNat ∧
      w.Chain' (· ≤ ·) ∧
      w.Sorted (· ≤ ·) ∧
      w.Perm (streamTake s.random (s.input 0).toNat) ∧
      (w : Multiset Int) = (streamTake s.random (s.input 0).toNat : Multiset Int)) ∧
    written (run base (initState 5 [3, 1, 4, 1, 5])).traps = [1, 1, 3, 4, 5] ∧
    written (run base (initState 4 [-2, -2, 0, -2])).traps = [-2, -2, -2, 0] := by
  refine ⟨?_, ?_, ?_⟩
  · obtain ⟨_, h2, h3, _⟩ := run_spec base s hN
    exact ⟨_, run_written base s hN, readArray_length _ _ _, List.Pairwise.chain' h2, h2, h3,
      Multiset.coe_eq_coe.mpr h3⟩
  · rw [run_written_eq_referenceSort base (initState 5 [3, 1, 4, 1, 5]) (by decide)]
    decide
  · rw [run_written_eq_referenceSort base (initState 4 [-2, -2, 0, -2]) (by decide)]
    decide

theorem run_writes_sorted_permutation_witness :
    (0 : Int) ≤ (initState 3 [7, -1, 2]).input 0 ∧
    written (run 100 (initState 3 [7, -1, 2])).traps = [-1, 2, 7] ∧
    written (run 100 (initState 5 [3, 1, 4, 1, 5])).traps = [1, 1, 3, 4, 5] :=
  ⟨by decide, by decide,
    (run_writes_sorted_permutation 100 (initState 3 [7, -1, 2]) (by decide)).2.1⟩

/-- C2: after `sort(num_elem, array)` every slot of `array[0..num_elem)` is at
most the next one, under the signed order.  (No assumption on `num_elem` is
needed: for `num_elem ≤ 1` there is no such pair of slots.) -/
theorem sort_nondecreasing (num_elem array : Int) (s : State) :
    ∀ k, 0 ≤ k → k < num_elem - 1 →
      (sort num_elem array s).mem (array + k)
        ≤ (sort num_elem array s).mem (array + (k + 1)) := by
  intro k hk0 hk
  exact sort_le num_elem array s k (k + 1) hk0 (by omega) (by omega)

theorem sort_nondecreasing_witness :
    (0 : Int) ≤ 1 ∧ (1 : Int) < 4 - 1 ∧
    (sort 4 10 descState).mem (10 + 1) ≤ (sort 4 10 descState).mem (10 + (1 + 1)) ∧
    readArray (sort 4 10 descState).mem 10 4 = [-13, -12, -11, -10] :=
  ⟨by decide, by decide, sort_nondecreasing 4 10 descState 1 (by decide) (by decide),
    by decide⟩

/-- C3: the contents of `array[0..num_elem)` after `sort` are a permutation of
the contents before it: equal as multisets, every value with the same number
of occurrences. -/
theorem sort_permutation (num_elem array : Int) (s : State) :
    (readArray (sort num_elem array s).mem array num_elem.toNat).Perm
      (readArray s.mem array num_elem.toNat) ∧
    ((readArray (sort num_elem array s).mem array num_elem.toNat : List Int) : Multiset Int)
      = (readArray s.mem array num_elem.toNat : Multiset Int) ∧
    ∀ v : Int, (readArray (sort num_elem array s).mem array num_elem.toNat).count v
      = (readArray s.mem array num_elem.toNat).count v :=
  ⟨sort_perm num_elem array s, Multiset.coe_eq_coe.mpr (sort_perm num_elem array s),
    fun v => (sort_perm num_elem array s).count_eq v⟩

/-- C4: when the read trap returns `N ≥ 0`, the traps `run` issues are exactly
one trap with opcode 0, then `N` traps with opcode 1, then `N` traps with
opcode 2 whose arguments are slots `0, ..., N-1` of the buffer returned by
`get_random_array` as `sort` left it; that buffer is in non-decreasing order. -/
theorem run_trap_sequence (base : Int) (s : State) (hN : 0 ≤ s.input 0) :
    (run base s).traps
      = s.traps ++ [⟨0, none⟩]
        ++ List.replicate (s.input 0).toNat ⟨1, none⟩
        ++ (readArray
              (sort (s.input 0)
                (get_random_array (s.input 0) (read_long (init_allocator base s)).2).1
                (get_random_array (s.input 0) (read_long (init_allocator base s)).2).2).mem
              (get_random_array (s.input 0) (read_long (init_allocator base s)).2).1
              (s.input 0).toNat).map (fun v => (⟨2, some v⟩ : Trap)) ∧
    (readArray
        (sort (s.input 0)
          (get_random_array (s.input 0) (read_long (init_allocator base s)).2).1
          (get_random_array (s.input 0) (read_long (init_allocator base s)).2).2).mem
        (get_random_array (s.input 0) (read_long (init_allocator base s)).2).1
        (s.input 0).toNat).Sorted (· ≤ ·) := by
  have hp : (get_random_array (s.input 0) (read_long (init_allocator base s)).2).1 = base := rfl
  rw [hp, ← run_mem base s]
  exact ⟨(run_spec base s hN).1, (run_spec base s hN).2.1⟩

theorem run_trap_sequence_witness :
    (0 : Int) ≤ (initState 3 [7, -1, 2]).input 0 ∧
    (run 100 (initState 3 [7, -1, 2])).traps
      = [⟨0, none⟩, ⟨1, none⟩, ⟨1, none⟩, ⟨1, none⟩,
         ⟨2, some (-1)⟩, ⟨2, some 2⟩, ⟨2, some 7⟩] ∧
    (readArray
        (sort 3 (get_random_array 3 (read_long (init_allocator 100 (initState 3 [7, -1, 2]))).2).1
          (get_random_array 3 (read_long (init_allocator 100 (initState 3 [7, -1, 2]))).2).2).mem
        (get_random_array 3 (read_long (init_allocator 100 (initState 3 [7, -1, 2]))).2).1
        3).Sorted (· ≤ ·) :=
  ⟨by decide, by decide, (run_trap_sequence 100 (initState 3 [7, -1, 2]) (by decide)).2⟩

/-- C5, as amended: after `init_allocator` at a base `≥ 0`, a sequence of
`allocate` calls with sizes `cs`, each `≥ 0`, whose total keeps the cursor
inside the address space (`base + sum of cs < 2 ^ 61` slots), returns as its
`k`-th region the slots from `base + (sum of the sizes before k)` up to, not
including, `base + (sum of the sizes up to and including k)`; so each region
begins where the previous one ends, the regions are issued in increasing address
order (strictly after a region that is not empty), and no slot lies in two of
them. -/
theorem allocate_regions (base : Int) (s : State) (cs : List Int) (hcs : ∀ c ∈ cs, 0 ≤ c)
    (hbase : 0 ≤ base) (hfit : base + cs.sum < addrSlots) :
    (allocateAll cs (init_allocator base s)).1
        = (List.range cs.length).map (fun k => base + (cs.take k).sum) ∧
    (∀ k, k < cs.length →
      (allocateAll cs (init_allocator base s)).1.getD k 0 + cs.getD k 0
        = base + (cs.take (k + 1)).sum) ∧
    (∀ k, k + 1 < cs.length →
      (allocateAll cs (init_allocator base s)).1.getD (k + 1) 0
        = (allocateAll cs (init_allocator base s)).1.getD k 0 + cs.getD k 0) ∧
    (∀ j k, j ≤ k → k < cs.length →
      (allocateAll cs (init_allocator base s)).1.getD j 0
        ≤ (allocateAll cs (init_allocator base s)).1.getD k 0) ∧
    (∀ j k, j < k → k < cs.length → 0 < cs.getD j 0 →
      (allocateAll cs (init_allocator base s)).1.getD j 0
        < (allocateAll cs (init_allocator base s)).1.getD k 0) ∧
    (∀ j k, j < k → k < cs.length → ∀ x,
      ¬ (inRegion x ((allocateAll cs (init_allocator base s)).1.getD j 0) (cs.getD j 0) ∧
         inRegion x ((allocateAll cs (init_allocator base s)).1.getD k 0) (cs.getD k 0))) := by
  have hget : ∀ k, k < cs.length →
      (allocateAll cs (init_allocator base s)).1.getD k 0 = base + (cs.take k).sum :=
    fun k hk => allocateAll_getD cs (init_allocator base s) hcs hbase hfit k hk
  refine ⟨(allocateAll_eq cs (init_allocator base s) hcs hbase hfit).1, ?_, ?_, ?_, ?_, ?_⟩
  · intro k hk
    rw [hget k hk, sum_take_succ_getD cs k hk]
    ring
  · intro k hk
    rw [hget (k + 1) hk, hget k (by omega), sum_take_succ_getD cs k (by omega)]
    ring
  · intro j k hjk hk
    rw [hget j (by omega), hget k hk]
    have := sum_take_mono cs hcs j k hjk
    omega
  · intro j k hjk hk hpos
    rw [hget j (by omega), hget k hk]
    have h5 := sum_take_succ_getD cs j (by omega)
    have h6 := sum_take_mono cs hcs (j + 1) k (by omega)
    omega
  · intro j k hjk hk x ⟨⟨_, h2⟩, ⟨h3, _⟩⟩
    rw [hget j (by omega)] at h2
    rw [hget k hk] at h3
    have h5 := sum_take_succ_getD cs j (by omega)
    have h6 := sum_take_mono cs hcs (j + 1) k (by omega)
    omega

theorem allocate_regions_witness :
    (∀ c ∈ ([2, 0, 3] : List Int), 0 ≤ c) ∧ (0 : Int) ≤ 100 ∧
    (100 : Int) + ([2, 0, 3] : List Int).sum < addrSlots ∧
    (allocateAll [2, 0, 3] (init_allocator 100 (initState 0 []))).1 = [100, 102, 102] ∧
    (allocateAll [2, 0, 3] (init_allocator 100 (initState 0 []))).1
        = (List.range ([2, 0, 3] : List Int).length).map
            (fun k => 100 + (([2, 0, 3] : List Int).take k).sum) :=
  ⟨by decide, by decide, by decide, by decide,
    (allocate_regions 100 (initState 0 []) [2, 0, 3] (by decide) (by decide) (by decide)).1⟩

/-- C5 as stated fails: the sizes `2 ^ 61` and `1` are both `≥ 0`, yet the second
call returns the base again (the cursor has gone once round the address space),
not `base + 2 ^ 61`, and slot `base` lies in both regions. -/
theorem allocate_regions_overlap :
    (∀ c ∈ ([2305843009213693952, 1] : List Int), 0 ≤ c) ∧
    (allocateAll [2305843009213693952, 1] (init_allocator 100 (initState 0 []))).1
      = [100, 100] ∧
    (allocateAll [2305843009213693952, 1] (init_allocator 100 (initState 0 []))).1
      ≠ (List.range ([2305843009213693952, 1] : List Int).length).map
          (fun k => 100 + (([2305843009213693952, 1] : List Int).take k).sum) ∧
    (inRegion 100
        ((allocateAll [2305843009213693952, 1] (init_allocator 100 (initState 0 []))).1.getD 0 0)
        (([2305843009213693952, 1] : List Int).getD 0 0) ∧
      inRegion 100
        ((allocateAll [2305843009213693952, 1] (init_allocator 100 (initState 0 []))).1.getD 1 0)
        (([2305843009213693952, 1] : List Int).getD 1 0)) := by
  decide

/-- C6, as amended: `allocate(count)` with `count ≥ 0` returns the cursor it found
and leaves the cursor `count` slots further in 64-bit address arithmetic, that
is at `(c + count) mod 2 ^ 61` slots; when `c ≥ 0` and `c + count` is inside the
address space the new cursor is `c + count`, not below where it was.  It stores
to no memory slot (memory and the store log are as before; so are the host
streams and the trap trace). -/
theorem allocate_returns_cursor (count : Int) (s : State) (hcount : 0 ≤ count) :
    (allocate count s).1 = s.cur_allocator ∧
    (allocate count s).2.cur_allocator = (s.cur_allocator + count) % addrSlots ∧
    (0 ≤ s.cur_allocator → s.cur_allocator + count < addrSlots →
      (allocate count s).2.cur_allocator = s.cur_allocator + count ∧
      s.cur_allocator ≤ (allocate count s).2.cur_allocator) ∧
    (allocate count s).2.mem = s.mem ∧
    (allocate count s).2.stores = s.stores ∧
    (allocate count s).2.traps = s.traps ∧
    (allocate count s).2.input = s.input ∧
    (allocate count s).2.random = s.random := by
  refine ⟨rfl, rfl, ?_, rfl, rfl, rfl, rfl, rfl⟩
  intro h0 h1
  rw [allocate_cursor_of_lt count s (by omega) h1]
  exact ⟨rfl, by show s.cur_allocator ≤ s.cur_allocator + count; omega⟩

theorem allocate_returns_cursor_witness :
    (0 : Int) ≤ 4 ∧
    (0 : Int) ≤ (init_allocator 100 (initState 0 [])).cur_allocator ∧
    (init_allocator 100 (initState 0 [])).cur_allocator + 4 < addrSlots ∧
    (allocate 4 (init_allocator 100 (initState 0 []))).1 = 100 ∧
    (allocate 4 (init_allocator 100 (initState 0 []))).2.cur_allocator
      = (init_allocator 100 (initState 0 [])).cur_allocator + 4 ∧
    (init_allocator 100 (initState 0 [])).cur_allocator
      ≤ (allocate 4 (init_allocator 100 (initState 0 []))).2.cur_allocator :=
  ⟨by decide, by decide, by decide,
    (allocate_returns_cursor 4 (init_allocator 100 (initState 0 [])) (by decide)).1,
    (allocate_returns_cursor 4 (init_allocator 100 (initState 0 [])) (by decide)).2.2.1
      (by decide) (by decide)⟩

/-- C6 as stated fails: `allocate(LONG_MAX)` is a call with `count ≥ 0`, and it
leaves the cursor one slot below where it was (`8 * LONG_MAX` is `-8` modulo
`2 ^ 64`), not at or above it. -/
theorem allocate_cursor_rewinds :
    (0 : Int) ≤ 9223372036854775807 ∧
    (allocate 9223372036854775807 (init_allocator 100 (initState 0 []))).1 = 100 ∧
    (allocate 9223372036854775807 (init_allocator 100 (initState 0 []))).2.cur_allocator
      = 99 ∧
    ¬ ((init_allocator 100 (initState 0 [])).cur_allocator
        ≤ (allocate 9223372036854775807
            (init_allocator 100 (initState 0 []))).2.cur_allocator) := by
  decide

/-- C8: on an array whose slots `0 .. num_elem-1` are already in non-decreasing
order, `sort` returns the very state it was given: no slot changes and no store
is executed, so no swap is performed.  Consequently, for any state, sorting
twice gives the same state as sorting once. -/
theorem sort_of_nondecreasing (num_elem array : Int) (s : State)
    (h : nondecreasing s array num_elem) :
    sort num_elem array s = s ∧
    (sort num_elem array s).stores = s.stores ∧
    (∀ x, (sort num_elem array s).mem x = s.mem x) ∧
    ∀ t : State, sort num_elem array (sort num_elem array t) = sort num_elem array t := by
  have h1 : sort num_elem array s = s :=
    sort_of_le num_elem array s (nondecreasing_le s array num_elem h)
  refine ⟨h1, by rw [h1], fun x => by rw [h1], fun t => ?_⟩
  exact sort_of_le num_elem array _ (sort_le num_elem array t)

theorem sort_of_nondecreasing_witness :
    nondecreasing ascState 10 4 ∧
    sort 4 10 ascState = ascState ∧
    readArray (sort 4 10 ascState).mem 10 4 = [10, 11, 12, 13] :=
  ⟨fun k _ _ => by show (10 : Int) + k ≤ 10 + (k + 1); omega,
    (sort_of_nondecreasing 4 10 ascState
      (fun k _ _ => by show (10 : Int) + k ≤ 10 + (k + 1); omega)).1,
    by decide⟩

/-- C9: when the read trap returns `0`, `run` issues the read trap and nothing
else (no random trap, no write trap, so nothing is written to the host), leaves
the cursor at the base (for every base that is a slot address, `0 ≤ base < 2 ^ 61`;
in general at the base reduced to the address space), executes no store and
leaves every memory slot as it was. -/
theorem run_zero (base : Int) (s : State) (h0 : s.input 0 = 0) :
    (run base s).traps = s.traps ++ [⟨0, none⟩] ∧
    written (run base s).traps = written s.traps ∧
    (run base s).cur_allocator = base % addrSlots ∧
    (0 ≤ base → base < addrSlots → (run base s).cur_allocator = base) ∧
    (run base s).stores = s.stores ∧
    (run base s).mem = s.mem := by
  have hrun : run base s =
      { s with cur_allocator := base % addrSlots
               input := fun k => s.input (k + 1)
               traps := s.traps ++ [⟨0, none⟩] } := by
    rw [run_of_nonpos base s (by omega), h0, add_zero]
  rw [hrun]
  refine ⟨rfl, ?_, rfl, ?_, rfl, rfl⟩
  · simp [written_append, written]
  · intro hb0 hb1
    exact Int.emod_eq_of_lt hb0 hb1

theorem run_zero_witness :
    (initState 0 [5, 6]).input 0 = 0 ∧
    (run 100 (initState 0 [5, 6])).traps = [⟨0, none⟩] ∧
    written (run 100 (initState 0 [5, 6])).traps = [] ∧
    (run 100 (initState 0 [5, 6])).cur_allocator = 100 ∧
    (run 100 (initState 0 [5, 6])).stores = [] :=
  ⟨rfl, (run_zero 100 (initState 0 [5, 6]) rfl).1, by decide,
    (run_zero 100 (initState 0 [5, 6]) rfl).2.2.2.1 (by decide) (by decide), by decide⟩

/-- C10: the array `sort` produces is, slot for slot, the list the reference
sort (insertion sort under `≤`) produces from the same input; and the same
holds for any function that returns a sorted permutation of its input. -/
theorem sort_eq_referenceSort (num_elem array : Int) (s : State) :
    readArray (sort num_elem array s).mem array num_elem.toNat
      = referenceSort (readArray s.mem array num_elem.toNat) ∧
    ∀ f : List Int → List Int, (∀ l, (f l).Sorted (· ≤ ·) ∧ (f l).Perm l) →
      readArray (sort num_elem array s).mem array num_elem.toNat
        = f (readArray s.mem array num_elem.toNat) := by
  have key : ∀ f : List Int → List Int, (∀ l, (f l).Sorted (· ≤ ·) ∧ (f l).Perm l) →
      readArray (sort num_elem array s).mem array num_elem.toNat
        = f (readArray s.mem array num_elem.toNat) := fun f hf =>
    List.eq_of_perm_of_sorted
      ((sort_perm num_elem array s).trans (hf _).2.symm)
      (sort_sorted_list num_elem array s) (hf _).1
  exact ⟨key referenceSort fun l =>
    ⟨List.sorted_insertionSort (· ≤ ·) l, List.perm_insertionSort (· ≤ ·) l⟩, key⟩

theorem sort_eq_referenceSort_witness :
    (∀ l : List Int, (referenceSort l).Sorted (· ≤ ·) ∧ (referenceSort l).Perm l) ∧
    readArray (sort 4 10 descState).mem 10 (4 : Int).toNat
      = referenceSort (readArray descState.mem 10 (4 : Int).toNat) ∧
    referenceSort (readArray descState.mem 10 (4 : Int).toNat) = [-13, -12, -11, -10] :=
  ⟨fun l => ⟨List.sorted_insertionSort (· ≤ ·) l, List.perm_insertionSort (· ≤ ·) l⟩,
    (sort_eq_referenceSort 4 10 descState).2 referenceSort
      (fun l => ⟨List.sorted_insertionSort (· ≤ ·) l, List.perm_insertionSort (· ≤ ·) l⟩),
    by decide⟩

/-- C11: `get_random_array(count)` with `count ≥ 0` changes no memory slot
outside the returned range `[p, p + count)`, stores only to the slots of that
range, and appends to the trap trace only traps with opcode 1 (no read trap, no
write trap: nothing is written to the host and the read stream is untouched);
its other effects are the allocation and the consumed random values. -/
theorem get_random_array_frame (count : Int) (s : State) (hcount : 0 ≤ count) :
    (∀ x, ¬ inRegion x (get_random_array count s).1 count →
      (get_random_array count s).2.mem x = s.mem x) ∧
    (get_random_array count s).2.traps
      = s.traps ++ List.replicate count.toNat ⟨1, none⟩ ∧
    (∀ e ∈ (get_random_array count s).2.traps, e ∈ s.traps ∨ e.opcode = 1) ∧
    written (get_random_array count s).2.traps = written s.traps ∧
    (get_random_array count s).2.input = s.input ∧
    (get_random_array count s).2.cur_allocator = (allocate count s).2.cur_allocator ∧
    (get_random_array count s).2.random = (fun k => s.random (k + count.toNat)) ∧
    (get_random_array count s).2.stores
      = s.stores ++ (List.range count.toNat).map
          (fun (k : Nat) => (get_random_array count s).1 + (k : Int)) := by
  obtain ⟨g1, g2, g3, g4, g5, _, g7⟩ :=
    get_random_array_loop s.cur_allocator count (allocate count s).2 hcount
  have hst : (get_random_array count s).2
      = forLoop (get_random_array_body s.cur_allocator) count (count - 0).toNat 0
          (allocate count s).2 := rfl
  have hp : (get_random_array count s).1 = s.cur_allocator := rfl
  rw [hp, hst]
  refine ⟨?_, g4, ?_, ?_, g2, g1, g3, g5⟩
  · intro x hx
    unfold inRegion at hx
    exact g7 x (by omega)
  · intro e he
    rw [g4, List.mem_append] at he
    rcases he with he | he
    · exact Or.inl he
    · rw [List.eq_of_mem_replicate he]
      exact Or.inr rfl
  · rw [g4, written_append, written_replicate_random, List.append_nil]
    rfl

theorem get_random_array_frame_witness :
    (0 : Int) ≤ 3 ∧
    (∀ x, ¬ inRegion x (get_random_array 3 otherState).1 3 →
      (get_random_array 3 otherState).2.mem x = otherState.mem x) ∧
    (get_random_array 3 otherState).2.traps
      = [⟨1, none⟩, ⟨1, none⟩, ⟨1, none⟩, ⟨1, none⟩] ∧
    (get_random_array 3 otherState).2.stores = [4, 55, 56, 57] ∧
    (get_random_array 3 otherState).2.mem 54 = -54 ∧
    (get_random_array 3 otherState).2.mem 58 = -58 :=
  ⟨by decide, (get_random_array_frame 3 otherState (by decide)).1, by decide, by decide,
    by decide, by decide⟩

/-- C12: whatever the state before (any cursor, any earlier allocations),
`init_allocator` leaves the cursor at the base, so the next `allocate` returns
the base; memory, host streams, trap trace and store log are untouched. -/
theorem init_allocator_resets (base : Int) (s : State) :
    (init_allocator base s).cur_allocator = base ∧
    (∀ c, (allocate c (init_allocator base s)).1 = base) ∧
    (∀ cs : List Int, (init_allocator base (allocateAll cs s).2).cur_allocator = base) ∧
    (∀ cs : List Int, ∀ c, (allocate c (init_allocator base (allocateAll cs s).2)).1 = base) ∧
    (init_allocator base s).mem = s.mem ∧
    (init_allocator base s).input = s.input ∧
    (init_allocator base s).random = s.random ∧
    (init_allocator base s).traps = s.traps ∧
    (init_allocator base s).stores = s.stores :=
  ⟨rfl, fun _ => rfl, fun _ => rfl, fun _ _ => rfl, rfl, rfl, rfl, rfl, rfl⟩

/-- C13: `print_array(num_elem, array)` appends to the trap trace exactly
`num_elem` traps with opcode 2 whose arguments are `array[0], ..., array[num_elem-1]`
in index order, and is read-only: memory, cursor, store log and host streams are
as before. -/
theorem print_array_writes (num_elem array : Int) (s : State) :
    (print_array num_elem array s).traps
      = s.traps ++ (readArray s.mem array num_elem.toNat).map
          (fun v => (⟨2, some v⟩ : Trap)) ∧
    ((readArray s.mem array num_elem.toNat).map
      (fun v => (⟨2, some v⟩ : Trap))).length = num_elem.toNat ∧
    written (print_array num_elem array s).traps
      = written s.traps ++ readArray s.mem array num_elem.toNat ∧
    (print_array num_elem array s).mem = s.mem ∧
    (print_array num_elem array s).cur_allocator = s.cur_allocator ∧
    (print_array num_elem array s).stores = s.stores ∧
    (print_array num_elem array s).input = s.input ∧
    (print_array num_elem array s).random = s.random := by
  rw [print_array_eq]
  refine ⟨rfl, ?_, ?_, rfl, rfl, rfl, rfl, rfl⟩
  · rw [List.length_map, readArray_length]
  · show written (s.traps ++ _) = _
    rw [written_append, written_map_write]

theorem print_array_writes_witness :
    (print_array 3 10 descState).traps = [⟨2, some (-10)⟩, ⟨2, some (-11)⟩, ⟨2, some (-12)⟩] ∧
    (print_array 3 10 descState).traps
      = descState.traps ++ (readArray descState.mem 10 (3 : Int).toNat).map
          (fun v => (⟨2, some v⟩ : Trap)) :=
  ⟨by decide, (print_array_writes 3 10 descState).1⟩

/-- C14: outer-loop invariant of `sort`.  For `0 ≤ i < num_elem`, the state after
the outer iteration with index `i` completes (the inner loop over every `j` with
`i < j < num_elem`, run on the state after the earlier iterations) has slots
`array[0..i]` in non-decreasing order, every value of `array[0..i]` at most every
value of `array[i+1..num_elem)`, and `array[0..num_elem)` a permutation of the
original contents. -/
theorem sort_outer_invariant (num_elem array : Int) (s : State) (i : Int)
    (hi0 : 0 ≤ i) (hi : i < num_elem) :
    sort_after num_elem array (i.toNat + 1) s
      = sort_outer_body num_elem array i (sort_after num_elem array i.toNat s) ∧
    (∀ a b, 0 ≤ a → a ≤ b → b ≤ i →
      (sort_after num_elem array (i.toNat + 1) s).mem (array + a)
        ≤ (sort_after num_elem array (i.toNat + 1) s).mem (array + b)) ∧
    (∀ a b, 0 ≤ a → a ≤ i → i < b → b < num_elem →
      (sort_after num_elem array (i.toNat + 1) s).mem (array + a)
        ≤ (sort_after num_elem array (i.toNat + 1) s).mem (array + b)) ∧
    (readArray (sort_after num_elem array (i.toNat + 1) s).mem array num_elem.toNat).Perm
      (readArray s.mem array num_elem.toNat) := by
  have hc : ((i.toNat : Nat) : Int) = i := Int.toNat_of_nonneg hi0
  have hk : (((i.toNat + 1 : Nat)) : Int) ≤ num_elem := by push_cast; omega
  obtain ⟨h1, h2⟩ := sort_after_inv num_elem array s (i.toNat + 1) hk
  have hs := sort_after_succ num_elem array s i.toNat (by omega)
  rw [hc] at hs
  refine ⟨hs, ?_, ?_, h2⟩
  · intro a b ha hab hb
    exact h1 a b ha (by push_cast; omega) hab (by omega)
  · intro a b ha hai hib hbn
    exact h1 a b ha (by push_cast; omega) (by omega) hbn

theorem sort_outer_invariant_witness :
    (0 : Int) ≤ 1 ∧ (1 : Int) < 4 ∧
    readArray (sort_after 4 10 ((1 : Int).toNat + 1) descState).mem 10 4
      = [-13, -12, -10, -11] ∧
    (readArray (sort_after 4 10 ((1 : Int).toNat + 1) descState).mem 10 (4 : Int).toNat).Perm
      (readArray descState.mem 10 (4 : Int).toNat) ∧
    sort_after 4 10 (4 : Int).toNat descState = sort 4 10 descState :=
  ⟨by decide, by decide, by decide,
    (sort_outer_invariant 4 10 descState 1 (by decide) (by decide)).2.2.2,
    sort_after_all 4 10 descState⟩

/-- C15: `sort(num_elem, array)` works in place: every memory slot outside
`array[0..num_elem)` keeps its value, the cursor is unchanged, no trap is issued
and the host streams are untouched; for `num_elem ≤ 0` it returns the state it
was given. -/
theorem sort_in_place (num_elem array : Int) (s : State) :
    (∀ x, ¬ inRegion x array num_elem → (sort num_elem array s).mem x = s.mem x) ∧
    (sort num_elem array s).cur_allocator = s.cur_allocator ∧
    (sort num_elem array s).traps = s.traps ∧
    (sort num_elem array s).input = s.input ∧
    (sort num_elem array s).random = s.random ∧
    (num_elem ≤ 0 → sort num_elem array s = s) := by
  obtain ⟨f1, f2, f3, f4⟩ := sort_fields num_elem array s
  refine ⟨?_, f1, f4, f2, f3, sort_of_nonpos num_elem array s⟩
  intro x hx
  unfold inRegion at hx
  exact sort_frame num_elem array s x (by omega)

theorem sort_in_place_witness :
    ¬ inRegion 9 10 4 ∧ ¬ inRegion 14 10 4 ∧
    (sort 4 10 descState).mem 9 = descState.mem 9 ∧
    (sort 4 10 descState).mem 14 = descState.mem 14 ∧
    ((-2 : Int) ≤ 0 ∧ sort (-2) 10 descState = descState) ∧
    (sort 4 10 descState).stores = [10, 11, 10, 12, 10, 13, 11, 12, 11, 13, 12, 13] :=
  ⟨by decide, by decide,
    (sort_in_place 4 10 descState).1 9 (by decide),
    (sort_in_place 4 10 descState).1 14 (by decide),
    ⟨by decide, (sort_in_place (-2) 10 descState).2.2.2.2.2 (by decide)⟩,
    by decide⟩

/-- C16: for a count `N ≥ 0`, the values `run` writes are the reference sort of
the first `N` random values, whatever the initial memory, cursor, traces and
later stream values; so two initial states that agree on `N` and on the first
`N` random values produce the same written sequence. -/
theorem run_output_independent (base : Int) (s1 s2 : State) (hN : 0 ≤ s1.input 0)
    (hin : s1.input 0 = s2.input 0)
    (hr : ∀ k, k < (s1.input 0).toNat → s1.random k = s2.random k) :
    written (run base s1).traps
      = written s1.traps ++ referenceSort (streamTake s1.random (s1.input 0).toNat) ∧
    written (run base s2).traps
      = written s2.traps ++ referenceSort (streamTake s1.random (s1.input 0).toNat) ∧
    (written (run base s1).traps).drop (written s1.traps).length
      = (written (run base s2).traps).drop (written s2.traps).length := by
  have h1 := run_written_eq_referenceSort base s1 hN
  have h2 := run_written_eq_referenceSort base s2 (by rw [← hin]; exact hN)
  rw [← hin, ← streamTake_congr s1.random s2.random _ hr] at h2
  refine ⟨h1, h2, ?_⟩
  rw [h1, h2, List.drop_left, List.drop_left]

theorem run_output_independent_witness :
    (0 : Int) ≤ (initState 3 [7, -1, 2]).input 0 ∧
    (initState 3 [7, -1, 2]).input 0 = otherState.input 0 ∧
    (∀ k, k < ((initState 3 [7, -1, 2]).input 0).toNat →
      (initState 3 [7, -1, 2]).random k = otherState.random k) ∧
    written (run 100 (initState 3 [7, -1, 2])).traps = [-1, 2, 7] ∧
    written (run 100 otherState).traps = [-1, 2, 7] ∧
    (written (run 100 (initState 3 [7, -1, 2])).traps).drop
        (written (initState 3 [7, -1, 2]).traps).length
      = (written (run 100 otherState).traps).drop (written otherState.traps).length :=
  ⟨by decide, by decide, by decide, by decide, by decide,
    (run_output_independent 100 (initState 3 [7, -1, 2]) otherState
      (by decide) (by decide) (by decide)).2.2⟩

/-- C17, as amended: when the read trap returns `N < 0`, `run` issues the read
trap and no other trap, executes no store and changes no memory slot, and leaves
the cursor at `base + N` in 64-bit address arithmetic, `(base + N) mod 2 ^ 61`
slots; when that address exists without wrapping (`0 ≤ base + N` and
`base < 2 ^ 61`) the cursor is `base + N`, that is `|N|` slots below the base. -/
theorem run_negative (base : Int) (s : State) (hN : s.input 0 < 0) :
    (run base s).traps = s.traps ++ [⟨0, none⟩] ∧
    written (run base s).traps = written s.traps ∧
    (run base s).stores = s.stores ∧
    (run base s).mem = s.mem ∧
    (run base s).cur_allocator = (base + s.input 0) % addrSlots ∧
    (0 ≤ base + s.input 0 → base < addrSlots →
      (run base s).cur_allocator = base + s.input 0 ∧
      (run base s).cur_allocator < base ∧
      base - (run base s).cur_allocator = ((s.input 0).natAbs : Int)) := by
  rw [run_of_nonpos base s (by omega)]
  refine ⟨rfl, ?_, rfl, rfl, rfl, ?_⟩
  · simp [written_append, written]
  · intro h0 h1
    have e : (base + s.input 0) % addrSlots = base + s.input 0 :=
      Int.emod_eq_of_lt h0 (by omega)
    refine ⟨e, ?_, ?_⟩
    · show (base + s.input 0) % addrSlots < base
      rw [e]
      omega
    · show base - (base + s.input 0) % addrSlots = ((s.input 0).natAbs : Int)
      rw [e]
      omega

theorem run_negative_witness :
    (initState (-3) [7, -1, 2]).input 0 < 0 ∧
    (0 : Int) ≤ 100 + (initState (-3) [7, -1, 2]).input 0 ∧ (100 : Int) < addrSlots ∧
    (run 100 (initState (-3) [7, -1, 2])).traps = [⟨0, none⟩] ∧
    (run 100 (initState (-3) [7, -1, 2])).stores = [] ∧
    (run 100 (initState (-3) [7, -1, 2])).cur_allocator = 97 ∧
    (run 100 (initState (-3) [7, -1, 2])).cur_allocator < 100 :=
  ⟨by decide, by decide, by decide, by decide, by decide, by decide,
    ((run_negative 100 (initState (-3) [7, -1, 2]) (by decide)).2.2.2.2.2
      (by decide) (by decide)).2.1⟩

/-- C17 as stated fails: for `N = -2 ^ 61`, which is `< 0`, `8 * N` is `0` modulo
`2 ^ 64` and `run` leaves the cursor exactly at the base, not `|N|` slots below
it; for `N = -200` at base `100` the cursor ends above the base. -/
theorem run_negative_not_below :
    (initState (-2305843009213693952) []).input 0 < 0 ∧
    (run 100 (initState (-2305843009213693952) [])).cur_allocator = 100 ∧
    ¬ ((run 100 (initState (-2305843009213693952) [])).cur_allocator
        = 100 + (initState (-2305843009213693952) []).input 0) ∧
    ¬ ((run 100 (initState (-2305843009213693952) [])).cur_allocator < 100) ∧
    (run 100 (initState (-200) [])).cur_allocator = 2305843009213693852 ∧
    ¬ ((run 100 (initState (-200) [])).cur_allocator < 100) := by
  decide

end X86prime
